import Mathlib

/-!
Verification of the BitTorrent extension subsystem (BEP 9 / BEP 10 / BEP 11)
from `rust/bittorrent/extension/src/lib.rs`.

Byte buffers are modelled as `List Nat`, machine integers as `Nat`/`Int`.
The registry, identifier map, message dispatch and the strict/lenient retry
combinator are translated from `lib.rs`.  The codec submodules
(`handshake.rs`, `metadata.rs`, `pex.rs`) and the bencode library are not part
of the provided sources; where a claim depends on them they are modelled from
the specification (see the doc comments starting with `Modelled from the
spec:`).
-/

/-! ### Raw byte-string lexicographic order (bencode canonical key order) -/

/-- Strict lexicographic order on raw byte strings: a proper prefix sorts
first, otherwise the first differing byte decides. This is the bencode
canonical dictionary-key order. -/
def ltBytes : List Nat → List Nat → Bool
  | [], [] => false
  | [], _ :: _ => true
  | _ :: _, [] => false
  | a :: as, b :: bs => if a < b then true else if a = b then ltBytes as bs else false

theorem ltBytes_irrefl (a : List Nat) : ltBytes a a = false := by
  induction a with
  | nil => rfl
  | cons x xs ih => simp [ltBytes, ih]

theorem ltBytes_connex (a b : List Nat) (h : a ≠ b) :
    ltBytes a b = true ∨ ltBytes b a = true := by
  induction a generalizing b with
  | nil =>
    cases b with
    | nil => exact absurd rfl h
    | cons y ys => left; rfl
  | cons x xs ih =>
    cases b with
    | nil => right; rfl
    | cons y ys =>
      by_cases hxy : x = y
      · subst hxy
        have hne : xs ≠ ys := by intro he; exact h (by rw [he])
        rcases ih ys hne with h1 | h1
        · left; simp [ltBytes, h1]
        · right; simp [ltBytes, h1]
      · rcases Nat.lt_or_ge x y with hlt | hge
        · left; simp [ltBytes, hlt]
        · have hlt : y < x := lt_of_le_of_ne hge (fun he => hxy he.symm)
          right; simp [ltBytes, hlt]

/-! ### Decimal digit strings (bencode integer and length tokens) -/

/-- A decimal digit byte (`'0'` = 48 … `'9'` = 57). -/
def isDigitByte (b : Nat) : Bool := 48 ≤ b && b ≤ 57

/-- Little-endian base-10 digits of `n`, computed with explicit fuel so the
definition is structurally recursive (and hence kernel-reducible). -/
def natDigitsAux : Nat → Nat → List Nat
  | 0, _ => []
  | f + 1, n => if n = 0 then [] else n % 10 :: natDigitsAux f (n / 10)

theorem natDigitsAux_eq_digits (f : Nat) :
    ∀ n, n ≤ f → natDigitsAux f n = Nat.digits 10 n := by
  induction f with
  | zero =>
    intro n hn
    interval_cases n
    simp [natDigitsAux]
  | succ f ih =>
    intro n hn
    by_cases h0 : n = 0
    · subst h0; simp [natDigitsAux]
    · have hpos : 0 < n := Nat.pos_of_ne_zero h0
      have hdl : n / 10 < n := Nat.div_lt_self hpos (by norm_num)
      rw [natDigitsAux, if_neg h0, ih (n / 10) (by omega),
        Nat.digits_def' (by norm_num : 1 < 10) hpos]

/-- The ASCII decimal representation of `n` (most significant digit first). -/
def natToDecimal (n : Nat) : List Nat :=
  if n = 0 then [48] else ((natDigitsAux n n).reverse).map (fun d => d + 48)

/-- Fold a big-endian digit-byte string back into the number it denotes. -/
def digitsToNat (ds : List Nat) : Nat :=
  ds.foldl (fun a d => a * 10 + (d - 48)) 0

theorem foldr_eq_ofDigits (L : List Nat) :
    L.foldr (fun x y => y * 10 + x) 0 = Nat.ofDigits 10 L := by
  induction L with
  | nil => simp [Nat.ofDigits_nil]
  | cons d tl ih =>
    simp only [List.foldr_cons, ih, Nat.ofDigits_cons]
    omega

theorem digitsToNat_natToDecimal (n : Nat) : digitsToNat (natToDecimal n) = n := by
  by_cases h0 : n = 0
  · subst h0; rfl
  · unfold natToDecimal digitsToNat
    rw [if_neg h0, natDigitsAux_eq_digits n n le_rfl, List.foldl_map, List.foldl_reverse]
    have he : (fun (x : Nat) (y : Nat) => y * 10 + (x + 48 - 48)) =
        (fun (x : Nat) (y : Nat) => y * 10 + x) := by
      funext x y
      omega
    rw [he, foldr_eq_ofDigits, Nat.ofDigits_digits]

theorem natToDecimal_ne_nil (n : Nat) : natToDecimal n ≠ [] := by
  by_cases h0 : n = 0
  · subst h0; simp [natToDecimal]
  · unfold natToDecimal
    rw [if_neg h0, natDigitsAux_eq_digits n n le_rfl]
    simp [Nat.digits_ne_nil_iff_ne_zero, h0]

theorem natToDecimal_all_digits (n : Nat) :
    ∀ x ∈ natToDecimal n, isDigitByte x = true := by
  intro x hx
  unfold natToDecimal at hx
  by_cases h0 : n = 0
  · rw [if_pos h0] at hx
    simp at hx
    subst hx; rfl
  · rw [if_neg h0, natDigitsAux_eq_digits n n le_rfl] at hx
    simp only [List.mem_map, List.mem_reverse] at hx
    obtain ⟨d, hd, rfl⟩ := hx
    have : d < 10 := Nat.digits_lt_base (by norm_num) hd
    simp only [isDigitByte, Bool.and_eq_true, decide_eq_true_eq]
    omega

/-! ### Primitive token parsers -/

/-- Parse a (nonempty) run of leading decimal digit bytes. -/
def parseNatNum (l : List Nat) : Option (Nat × List Nat) :=
  let ds := l.takeWhile isDigitByte
  if ds.isEmpty then none else some (digitsToNat ds, l.drop ds.length)

theorem takeWhile_all_append {p : Nat → Bool} (l1 : List Nat) (y : Nat) (l2 : List Nat)
    (h1 : ∀ x ∈ l1, p x = true) (h2 : p y = false) :
    (l1 ++ y :: l2).takeWhile p = l1 := by
  induction l1 with
  | nil => simp [List.takeWhile, h2]
  | cons x xs ih =>
    have hx : p x = true := h1 x (List.mem_cons_self x xs)
    have ih' := ih (fun a ha => h1 a (List.mem_cons_of_mem x ha))
    simp [List.takeWhile_cons, hx, ih']

theorem parseNatNum_round (n : Nat) (y : Nat) (l2 : List Nat)
    (hy : isDigitByte y = false) :
    parseNatNum (natToDecimal n ++ y :: l2) = some (n, y :: l2) := by
  unfold parseNatNum
  rw [takeWhile_all_append (natToDecimal n) y l2 (natToDecimal_all_digits n) hy]
  simp only [List.isEmpty_iff]
  rw [if_neg (natToDecimal_ne_nil n), digitsToNat_natToDecimal, List.drop_left]

/-- Parse a bencode integer body (everything after the leading `i`, consuming
the closing `e`).  Strictly, `-0` is rejected. -/
def parseIntNum (l : List Nat) : Option (Int × List Nat) :=
  match l with
  | [] => none
  | b :: tl =>
    if b = 45 then
      match parseNatNum tl with
      | some (n, e :: r) => if e = 101 ∧ n ≠ 0 then some (-(n : Int), r) else none
      | _ => none
    else
      match parseNatNum l with
      | some (n, e :: r) => if e = 101 then some ((n : Int), r) else none
      | _ => none

/-- The ASCII decimal representation of an integer (with `-` for negatives). -/
def intToDecimal (i : Int) : List Nat :=
  if i < 0 then 45 :: natToDecimal i.natAbs else natToDecimal i.toNat

theorem parseIntNum_round (i : Int) (rest : List Nat) :
    parseIntNum (intToDecimal i ++ 101 :: rest) = some (i, rest) := by
  by_cases hneg : i < 0
  · have hne : i.natAbs ≠ 0 := by omega
    have hval : -((i.natAbs : Nat) : Int) = i := by omega
    have h1 := parseNatNum_round i.natAbs 101 rest (by rfl)
    unfold intToDecimal
    rw [if_pos hneg]
    simp [parseIntNum, h1, hne, hval]
    rw [abs_of_neg hneg, neg_neg]
  · have hval : ((i.toNat : Nat) : Int) = i := by omega
    have h1 := parseNatNum_round i.toNat 101 rest (by rfl)
    unfold intToDecimal
    rw [if_neg hneg]
    obtain ⟨d, ds, hds⟩ : ∃ d ds, natToDecimal i.toNat = d :: ds := by
      cases h : natToDecimal i.toNat with
      | nil => exact absurd h (natToDecimal_ne_nil _)
      | cons d ds => exact ⟨d, ds, rfl⟩
    have hd : isDigitByte d = true := by
      apply natToDecimal_all_digits
      rw [hds]
      exact List.mem_cons_self d ds
    have hd45 : d ≠ 45 := by
      simp only [isDigitByte, Bool.and_eq_true, decide_eq_true_eq] at hd
      omega
    rw [hds] at h1 ⊢
    simp only [List.cons_append] at h1 ⊢
    simp [parseIntNum, hd45, h1, hval]

/-- Parse a bencode byte string: decimal length, `:`, then that many bytes. -/
def parseStr (l : List Nat) : Option (List Nat × List Nat) :=
  match parseNatNum l with
  | some (n, c :: r) => if c = 58 ∧ n ≤ r.length then some (r.take n, r.drop n) else none
  | _ => none

/-- Encode a bencode byte string: decimal length, `:`, the bytes. -/
def encodeStr (s : List Nat) : List Nat :=
  natToDecimal s.length ++ 58 :: s

theorem parseStr_round (s : List Nat) (rest : List Nat) :
    parseStr (encodeStr s ++ rest) = some (s, rest) := by
  have h1 := parseNatNum_round s.length 58 (s ++ rest) (by rfl)
  unfold encodeStr
  rw [List.append_assoc, List.cons_append]
  simp [parseStr, h1, List.take_left, List.drop_left]

theorem encodeStr_head_digit (s : List Nat) :
    ∃ d ds, encodeStr s = d :: ds ∧ isDigitByte d = true := by
  unfold encodeStr
  obtain ⟨d, ds, hds⟩ : ∃ d ds, natToDecimal s.length = d :: ds := by
    cases h : natToDecimal s.length with
    | nil => exact absurd h (natToDecimal_ne_nil _)
    | cons d ds => exact ⟨d, ds, rfl⟩
  refine ⟨d, ds ++ 58 :: s, by rw [hds]; simp, ?_⟩
  apply natToDecimal_all_digits
  rw [hds]
  exact List.mem_cons_self d ds

/-! ### Bencode values

Modelled from the spec: the shared bencode value layer (§2 item 1, §3) — an
in-memory tagged variant over byte string, integer, list, and dictionary
keyed by byte string.  The bencode library itself is external to the core
(`bittorrent_bencode`), so it is modelled from the specification's
description of the wire format (§6, glossary) together with the strict and
lenient parsing modes of §4.6. -/

mutual
inductive Value where
  | int (i : Int)
  | str (s : List Nat)
  | list (vs : ValueList)
  | dict (es : EntryList)
inductive ValueList where
  | nil
  | cons (v : Value) (tl : ValueList)
inductive EntryList where
  | nil
  | cons (key : List Nat) (v : Value) (tl : EntryList)
end

/-- Look up a dictionary key (first occurrence). -/
def lookupE : EntryList → List Nat → Option Value
  | .nil, _ => none
  | .cons k v tl, key => if k = key then some v else lookupE tl key

/-- Does the dictionary contain the key? -/
def hasKeyE : EntryList → List Nat → Bool
  | .nil, _ => false
  | .cons k _ tl, key => if k = key then true else hasKeyE tl key

/-- Keep only the entries whose key satisfies `p`. -/
def filterE (p : List Nat → Bool) : EntryList → EntryList
  | .nil => .nil
  | .cons k v tl => if p k then .cons k v (filterE p tl) else filterE p tl

/-- Do all keys satisfy `p`? -/
def allKeysE (p : List Nat → Bool) : EntryList → Bool
  | .nil => true
  | .cons k _ tl => p k && allKeysE p tl

/-- Insert an entry at its sorted position (canonical byte order). -/
def insertE (k : List Nat) (v : Value) : EntryList → EntryList
  | .nil => .cons k v .nil
  | .cons k' v' tl =>
    if ltBytes k k' then .cons k v (.cons k' v' tl) else .cons k' v' (insertE k v tl)

/-- `true` iff the dictionary is empty or its first key is above `b`. -/
def headKeyLt (b : List Nat) : EntryList → Bool
  | .nil => true
  | .cons k _ _ => ltBytes b k

/-- Keys strictly increasing in canonical byte order. -/
def entriesSorted : EntryList → Bool
  | .nil => true
  | .cons k _ tl => headKeyLt k tl && entriesSorted tl

/-- Ordered insert that overwrites an existing equal key (last wins). -/
def insertReplaceE (k : List Nat) (v : Value) : EntryList → EntryList
  | .nil => .cons k v .nil
  | .cons k' v' tl =>
    if ltBytes k k' then .cons k v (.cons k' v' tl)
    else if k = k' then .cons k v tl
    else .cons k' v' (insertReplaceE k v tl)

/-- Rebuild a dictionary from entries in encounter order, last occurrence of
a repeated key winning (the lenient mode of §4.6). -/
def dedupAux : EntryList → EntryList → EntryList
  | .nil, acc => acc
  | .cons k v tl, acc => dedupAux tl (insertReplaceE k v acc)

/-- Lenient dictionary normalization: sorted, repeated keys last-wins. -/
def dedupEntries (es : EntryList) : EntryList :=
  dedupAux es .nil

/-! ### Sizes, encoding and canonicality of bencode values -/

mutual
/-- Node-count measure used as parser fuel bound. -/
def sizeV : Value → Nat
  | .int _ => 1
  | .str _ => 1
  | .list vs => 1 + sizeVL vs
  | .dict es => 1 + sizeEL es
def sizeVL : ValueList → Nat
  | .nil => 1
  | .cons v tl => sizeV v + sizeVL tl
def sizeEL : EntryList → Nat
  | .nil => 1
  | .cons _ v tl => sizeV v + sizeEL tl
end

mutual
/-- Serialize a bencode value (canonical encoding; emits stored dictionary
order verbatim, per the non-goal of not re-normalizing inputs). -/
def encodeValue : Value → List Nat
  | .int i => 105 :: intToDecimal i ++ [101]
  | .str s => encodeStr s
  | .list vs => 108 :: encodeVL vs
  | .dict es => 100 :: encodeEL es
def encodeVL : ValueList → List Nat
  | .nil => [101]
  | .cons v tl => encodeValue v ++ encodeVL tl
def encodeEL : EntryList → List Nat
  | .nil => [101]
  | .cons k v tl => encodeStr k ++ encodeValue v ++ encodeEL tl
end

mutual
/-- A value every dictionary of which (recursively) has strictly sorted
keys — exactly the values the strict parser can produce. -/
def canonicalV : Value → Bool
  | .int _ => true
  | .str _ => true
  | .list vs => canonicalVL vs
  | .dict es => entriesSorted es && canonicalEL es
def canonicalVL : ValueList → Bool
  | .nil => true
  | .cons v tl => canonicalV v && canonicalVL tl
def canonicalEL : EntryList → Bool
  | .nil => true
  | .cons _ v tl => canonicalV v && canonicalEL tl
end

theorem sizeV_pos (v : Value) : 1 ≤ sizeV v := by
  cases v <;> simp [sizeV]

theorem sizeVL_pos (vs : ValueList) : 1 ≤ sizeVL vs := by
  cases vs with
  | nil => simp [sizeVL]
  | cons v tl => have := sizeV_pos v; simp [sizeVL]; omega

theorem sizeEL_pos (es : EntryList) : 1 ≤ sizeEL es := by
  cases es with
  | nil => simp [sizeEL]
  | cons k v tl => have := sizeV_pos v; simp [sizeEL]; omega

mutual
theorem sizeV_le_encode (v : Value) : sizeV v ≤ (encodeValue v).length := by
  cases v with
  | int i => simp [sizeV, encodeValue]
  | str s => simp [sizeV, encodeValue, encodeStr]; omega
  | list vs => have := sizeVL_le_encode vs; simp [sizeV, encodeValue]; omega
  | dict es => have := sizeEL_le_encode es; simp [sizeV, encodeValue]; omega
theorem sizeVL_le_encode (vs : ValueList) : sizeVL vs ≤ (encodeVL vs).length := by
  cases vs with
  | nil => simp [sizeVL, encodeVL]
  | cons v tl =>
    have h1 := sizeV_le_encode v
    have h2 := sizeVL_le_encode tl
    simp [sizeVL, encodeVL]
    omega
theorem sizeEL_le_encode (es : EntryList) : sizeEL es ≤ (encodeEL es).length := by
  cases es with
  | nil => simp [sizeEL, encodeEL]
  | cons k v tl =>
    have h1 := sizeV_le_encode v
    have h2 := sizeEL_le_encode tl
    simp [sizeEL, encodeEL]
    omega
end

/-! ### Dictionary entry lemmas -/

theorem lookupE_eq_none (es : EntryList) (k : List Nat) (h : hasKeyE es k = false) :
    lookupE es k = none := by
  cases es with
  | nil => rfl
  | cons k' v' tl =>
    simp only [hasKeyE] at h
    by_cases hk : k' = k
    · simp [hk] at h
    · simp only [lookupE, if_neg hk]
      exact lookupE_eq_none tl k (by simpa [if_neg hk] using h)

theorem lookupE_insertE_self (k : List Nat) (v : Value) (es : EntryList)
    (h : hasKeyE es k = false) : lookupE (insertE k v es) k = some v := by
  cases es with
  | nil => simp [insertE, lookupE]
  | cons k' v' tl =>
    simp only [hasKeyE] at h
    by_cases hk : k' = k
    · simp [hk] at h
    · by_cases hlt : ltBytes k k'
      · simp [insertE, hlt, lookupE]
      · simp only [insertE, if_neg (by simp [hlt] : ¬ ltBytes k k' = true), lookupE,
          if_neg hk]
        exact lookupE_insertE_self k v tl (by simpa [if_neg hk] using h)

theorem lookupE_insertE_ne (k : List Nat) (v : Value) (es : EntryList) (key : List Nat)
    (h : k ≠ key) : lookupE (insertE k v es) key = lookupE es key := by
  cases es with
  | nil => simp [insertE, lookupE, if_neg h]
  | cons k' v' tl =>
    by_cases hlt : ltBytes k k'
    · simp [insertE, hlt, lookupE, if_neg h]
    · simp only [insertE, if_neg (by simp [hlt] : ¬ ltBytes k k' = true), lookupE]
      by_cases hk : k' = key
      · simp [hk]
      · simp [if_neg hk, lookupE_insertE_ne k v tl key h]

theorem hasKeyE_insertE (k : List Nat) (v : Value) (es : EntryList) (key : List Nat) :
    hasKeyE (insertE k v es) key = if k = key then true else hasKeyE es key := by
  cases es with
  | nil => simp [insertE, hasKeyE]
  | cons k' v' tl =>
    by_cases hlt : ltBytes k k'
    · simp only [insertE, if_pos hlt, hasKeyE]
    · simp only [insertE, if_neg (by simp [hlt] : ¬ ltBytes k k' = true), hasKeyE,
        hasKeyE_insertE k v tl key]
      by_cases hk' : k' = key
      · by_cases hk : k = key <;> simp [hk', hk]
      · simp [if_neg hk']

theorem headKeyLt_insertE (b k : List Nat) (v : Value) (es : EntryList)
    (h1 : ltBytes b k = true) (h2 : headKeyLt b es = true) :
    headKeyLt b (insertE k v es) = true := by
  cases es with
  | nil => simpa [insertE, headKeyLt]
  | cons k' v' tl =>
    by_cases hlt : ltBytes k k'
    · simpa [insertE, hlt, headKeyLt]
    · simp only [insertE, if_neg (by simp [hlt] : ¬ ltBytes k k' = true)]
      simpa [headKeyLt] using h2

theorem entriesSorted_insertE (k : List Nat) (v : Value) (es : EntryList)
    (hs : entriesSorted es = true) (hk : hasKeyE es k = false) :
    entriesSorted (insertE k v es) = true := by
  cases es with
  | nil => simp [insertE, entriesSorted, headKeyLt]
  | cons k' v' tl =>
    simp only [hasKeyE] at hk
    by_cases hkk : k' = k
    · simp [hkk] at hk
    · rw [if_neg hkk] at hk
      simp only [entriesSorted, Bool.and_eq_true] at hs
      by_cases hlt : ltBytes k k'
      · simp only [insertE, if_pos hlt, entriesSorted, headKeyLt, Bool.and_eq_true]
        exact ⟨hlt, hs.1, hs.2⟩
      · have hk'k : ltBytes k' k = true := by
          rcases ltBytes_connex k k' (fun he => hkk he.symm) with h | h
          · exact absurd h (by simp [hlt])
          · exact h
        simp only [insertE, if_neg (by simp [hlt] : ¬ ltBytes k k' = true),
          entriesSorted, Bool.and_eq_true]
        exact ⟨headKeyLt_insertE k' k v tl hk'k hs.1, entriesSorted_insertE k v tl hs.2 hk⟩

theorem filterE_insertE_not (p : List Nat → Bool) (k : List Nat) (v : Value)
    (es : EntryList) (hp : p k = false) :
    filterE p (insertE k v es) = filterE p es := by
  cases es with
  | nil => simp [insertE, filterE, hp]
  | cons k' v' tl =>
    by_cases hlt : ltBytes k k'
    · simp [insertE, hlt, filterE, hp]
    · simp only [insertE, if_neg (by simp [hlt] : ¬ ltBytes k k' = true), filterE]
      by_cases hk' : p k'
      · simp [hk', filterE_insertE_not p k v tl hp]
      · simp [hk', filterE_insertE_not p k v tl hp]

theorem filterE_all (p : List Nat → Bool) (es : EntryList) (h : allKeysE p es = true) :
    filterE p es = es := by
  cases es with
  | nil => rfl
  | cons k v tl =>
    simp only [allKeysE, Bool.and_eq_true] at h
    simp [filterE, h.1, filterE_all p tl h.2]

theorem canonicalEL_insertE (k : List Nat) (v : Value) (es : EntryList)
    (hv : canonicalV v = true) (he : canonicalEL es = true) :
    canonicalEL (insertE k v es) = true := by
  cases es with
  | nil => simp [insertE, canonicalEL, hv]
  | cons k' v' tl =>
    simp only [canonicalEL, Bool.and_eq_true] at he
    by_cases hlt : ltBytes k k'
    · simp [insertE, hlt, canonicalEL, hv, he.1, he.2]
    · simp only [insertE, if_neg (by simp [hlt] : ¬ ltBytes k k' = true),
        canonicalEL, Bool.and_eq_true]
      exact ⟨he.1, canonicalEL_insertE k v tl hv he.2⟩

/-! ### The bencode parser

Modelled from the spec: the bencode parse library (§6) with its strict and
lenient modes (§4.6).  Strict mode enforces canonically sorted, unrepeated
dictionary keys; lenient mode accepts keys out of order and lets the last
occurrence of a repeated key win.  Fuel makes the recursion structural; any
fuel at least the node count of the encoded value suffices. -/

mutual
def parseVal (strict : Bool) : Nat → List Nat → Option (Value × List Nat)
  | 0, _ => none
  | f + 1, l =>
    match l with
    | [] => none
    | b :: r =>
      if b = 105 then (parseIntNum r).map (fun p => (Value.int p.1, p.2))
      else if b = 108 then (parseVals strict f r).map (fun p => (Value.list p.1, p.2))
      else if b = 100 then
        match parseEntries strict f r with
        | some (es, r') =>
          if strict then
            if entriesSorted es then some (Value.dict es, r') else none
          else some (Value.dict (dedupEntries es), r')
        | none => none
      else (parseStr (b :: r)).map (fun p => (Value.str p.1, p.2))
def parseVals (strict : Bool) : Nat → List Nat → Option (ValueList × List Nat)
  | 0, _ => none
  | f + 1, l =>
    match l with
    | [] => none
    | b :: r =>
      if b = 101 then some (.nil, r)
      else
        match parseVal strict f (b :: r) with
        | some (v, r') =>
          match parseVals strict f r' with
          | some (vs, r'') => some (.cons v vs, r'')
          | none => none
        | none => none
def parseEntries (strict : Bool) : Nat → List Nat → Option (EntryList × List Nat)
  | 0, _ => none
  | f + 1, l =>
    match l with
    | [] => none
    | b :: r =>
      if b = 101 then some (.nil, r)
      else
        match parseStr (b :: r) with
        | some (k, r') =>
          match parseVal strict f r' with
          | some (v, r'') =>
            match parseEntries strict f r'' with
            | some (es, r3) => some (.cons k v es, r3)
            | none => none
          | none => none
        | none => none
end

theorem encodeValue_head (v : Value) :
    ∃ b bs, encodeValue v = b :: bs ∧ b ≠ 101 := by
  cases v with
  | int i => exact ⟨105, intToDecimal i ++ [101], by simp [encodeValue], by omega⟩
  | str s =>
    obtain ⟨d, ds, hd, hdig⟩ := encodeStr_head_digit s
    refine ⟨d, ds, hd, ?_⟩
    simp only [isDigitByte, Bool.and_eq_true, decide_eq_true_eq] at hdig
    omega
  | list vs => exact ⟨108, encodeVL vs, by simp [encodeValue], by omega⟩
  | dict es => exact ⟨100, encodeEL es, by simp [encodeValue], by omega⟩

theorem parse_round (fuel : Nat) :
    (∀ v rest, sizeV v ≤ fuel → canonicalV v = true →
      parseVal true fuel (encodeValue v ++ rest) = some (v, rest)) ∧
    (∀ vs rest, sizeVL vs ≤ fuel → canonicalVL vs = true →
      parseVals true fuel (encodeVL vs ++ rest) = some (vs, rest)) ∧
    (∀ es rest, sizeEL es ≤ fuel → canonicalEL es = true →
      parseEntries true fuel (encodeEL es ++ rest) = some (es, rest)) := by
  induction fuel with
  | zero =>
    refine ⟨fun v _ h _ => ?_, fun vs _ h _ => ?_, fun es _ h _ => ?_⟩
    · have := sizeV_pos v; omega
    · have := sizeVL_pos vs; omega
    · have := sizeEL_pos es; omega
  | succ f ih =>
    obtain ⟨ihV, ihVL, ihEL⟩ := ih
    refine ⟨?_, ?_, ?_⟩
    · intro v rest hsz hc
      cases v with
      | int i =>
        have harr : encodeValue (Value.int i) ++ rest =
            105 :: (intToDecimal i ++ 101 :: rest) := by
          simp [encodeValue]
        rw [harr]
        simp [parseVal, parseIntNum_round]
      | str s =>
        obtain ⟨d, ds, hd, hdig⟩ := encodeStr_head_digit s
        have hdb : 48 ≤ d ∧ d ≤ 57 := by
          simpa [isDigitByte] using hdig
        have harr : encodeValue (Value.str s) ++ rest = d :: (ds ++ rest) := by
          simp [encodeValue, hd]
        have hps : parseStr (d :: (ds ++ rest)) = some (s, rest) := by
          rw [show d :: (ds ++ rest) = encodeStr s ++ rest from by rw [hd]; simp]
          exact parseStr_round s rest
        rw [harr]
        simp only [parseVal]
        rw [if_neg (by omega : ¬ d = 105), if_neg (by omega : ¬ d = 108),
          if_neg (by omega : ¬ d = 100), hps]
        rfl
      | list vs =>
        have harr : encodeValue (Value.list vs) ++ rest = 108 :: (encodeVL vs ++ rest) := by
          simp [encodeValue]
        have hsz' : sizeVL vs ≤ f := by
          simp only [sizeV] at hsz
          omega
        have hc' : canonicalVL vs = true := by simpa [canonicalV] using hc
        rw [harr]
        simp [parseVal, ihVL vs rest hsz' hc']
      | dict es =>
        have harr : encodeValue (Value.dict es) ++ rest = 100 :: (encodeEL es ++ rest) := by
          simp [encodeValue]
        have hsz' : sizeEL es ≤ f := by
          simp only [sizeV] at hsz
          omega
        simp only [canonicalV, Bool.and_eq_true] at hc
        rw [harr]
        simp [parseVal, ihEL es rest hsz' hc.2, hc.1]
    · intro vs rest hsz hc
      cases vs with
      | nil =>
        have harr : encodeVL ValueList.nil ++ rest = 101 :: rest := by
          simp [encodeVL]
        rw [harr]
        simp [parseVals]
      | cons v tl =>
        obtain ⟨b, bs, hb, hb101⟩ := encodeValue_head v
        have harr : encodeVL (ValueList.cons v tl) ++ rest =
            b :: (bs ++ (encodeVL tl ++ rest)) := by
          simp [encodeVL, hb]
        have hszv : sizeV v ≤ f := by
          have := sizeVL_pos tl
          simp only [sizeVL] at hsz
          omega
        have hsztl : sizeVL tl ≤ f := by
          have := sizeV_pos v
          simp only [sizeVL] at hsz
          omega
        simp only [canonicalVL, Bool.and_eq_true] at hc
        have hv : parseVal true f (b :: (bs ++ (encodeVL tl ++ rest))) =
            some (v, encodeVL tl ++ rest) := by
          rw [show b :: (bs ++ (encodeVL tl ++ rest)) =
            encodeValue v ++ (encodeVL tl ++ rest) from by rw [hb]; simp]
          exact ihV v (encodeVL tl ++ rest) hszv hc.1
        rw [harr]
        simp [parseVals, hb101, hv, ihVL tl rest hsztl hc.2]
    · intro es rest hsz hc
      cases es with
      | nil =>
        have harr : encodeEL EntryList.nil ++ rest = 101 :: rest := by
          simp [encodeEL]
        rw [harr]
        simp [parseEntries]
      | cons k v tl =>
        obtain ⟨d, ds, hd, hdig⟩ := encodeStr_head_digit k
        have hdb : 48 ≤ d ∧ d ≤ 57 := by
          simpa [isDigitByte] using hdig
        have harr : encodeEL (EntryList.cons k v tl) ++ rest =
            d :: (ds ++ (encodeValue v ++ (encodeEL tl ++ rest))) := by
          simp [encodeEL, hd]
        have hps : parseStr (d :: (ds ++ (encodeValue v ++ (encodeEL tl ++ rest)))) =
            some (k, encodeValue v ++ (encodeEL tl ++ rest)) := by
          rw [show d :: (ds ++ (encodeValue v ++ (encodeEL tl ++ rest))) =
            encodeStr k ++ (encodeValue v ++ (encodeEL tl ++ rest)) from by rw [hd]; simp]
          exact parseStr_round k (encodeValue v ++ (encodeEL tl ++ rest))
        have hszv : sizeV v ≤ f := by
          have := sizeEL_pos tl
          simp only [sizeEL] at hsz
          omega
        have hsztl : sizeEL tl ≤ f := by
          have := sizeV_pos v
          simp only [sizeEL] at hsz
          omega
        simp only [canonicalEL, Bool.and_eq_true] at hc
        rw [harr]
        simp only [parseEntries]
        rw [if_neg (by omega : ¬ d = 101), hps]
        simp [ihV v (encodeEL tl ++ rest) hszv hc.1, ihEL tl rest hsztl hc.2]

/-! ### Errors

Translated from the `Error` enum of `lib.rs` and from `serde_bencode::Error`
(the registry wraps its own errors into the bencode deserialization error via
`Error::custom`, which we model by the `custom` constructor). -/

inductive Error where
  | expectByteString (value : Value)
  | expectInteger (value : Value)
  | expectList (value : Value)
  | expectDictionary (value : Value)
  | invalidUtf8String (string : String)
  | missingDictionaryKey (key : String)
  | expectExtensionEnabled (id : Nat)
  | invalidExtensionId (id : Int)
  | unknownExtensionId (id : Nat)
  | invalidMetadataPiece (piece : Int)
  | invalidMetadataSize (size : Int)
  | unknownMetadataMessageType (message_type : Int)
  | expectPeerExchangeEndpointsSize (size : Nat) (expect : Nat)
  | invalidPeerExchangeEndpoints (endpoints : List Nat)

/-- The bencode deserialization error surfaced to the transport layer:
either a library-level parse failure or a wrapped (`custom`) codec error. -/
inductive SerdeError where
  | custom (e : Error)
  | parseFailure (msg : String)

/-- Modelled from the spec: the process-wide configuration read by the
enable-predicates `metadata::enable()` and `pex::enable()` (§6), passed
explicitly here. -/
structure Config where
  enable_metadata : Bool
  enable_peer_exchange : Bool

/-- Translated from `Enabled` in `lib.rs`. -/
structure Enabled where
  metadata : Bool
  peer_exchange : Bool
deriving DecidableEq

def Enabled.new (metadata : Bool) (peer_exchange : Bool) : Enabled :=
  ⟨metadata, peer_exchange⟩

def Enabled.load (cfg : Config) : Enabled :=
  Enabled.new cfg.enable_metadata cfg.enable_peer_exchange

/-! ### Wire dictionary keys and extension names (ASCII byte strings) -/

/-- `"m"` -/
def mKey : List Nat := [109]

/-- `"metadata_size"` -/
def metadataSizeKey : List Nat := [109, 101, 116, 97, 100, 97, 116, 97, 95, 115, 105, 122, 101]

/-- `"msg_type"` -/
def msgTypeKey : List Nat := [109, 115, 103, 95, 116, 121, 112, 101]

/-- `"piece"` -/
def pieceKey : List Nat := [112, 105, 101, 99, 101]

/-- `"total_size"` -/
def totalSizeKey : List Nat := [116, 111, 116, 97, 108, 95, 115, 105, 122, 101]

/-- `"added"` -/
def addedKey : List Nat := [97, 100, 100, 101, 100]

/-- `"added.f"` -/
def addedFKey : List Nat := [97, 100, 100, 101, 100, 46, 102]

/-- `"added6"` -/
def added6Key : List Nat := [97, 100, 100, 101, 100, 54]

/-- `"added6.f"` -/
def added6FKey : List Nat := [97, 100, 100, 101, 100, 54, 46, 102]

/-- `"dropped"` -/
def droppedKey : List Nat := [100, 114, 111, 112, 112, 101, 100]

/-- `"dropped6"` -/
def dropped6Key : List Nat := [100, 114, 111, 112, 112, 101, 100, 54]

/-- `"ut_metadata"` -/
def utMetadataName : List Nat := [117, 116, 95, 109, 101, 116, 97, 100, 97, 116, 97]

/-- `"ut_pex"` -/
def utPexName : List Nat := [117, 116, 95, 112, 101, 120]

/-! ### Message types

Modelled from the spec (§3, data model): the codec submodules that define
these types (`handshake.rs`, `metadata.rs`, `pex.rs`) are not among the
provided sources.  Field names follow the spec and the uses visible in
`lib.rs` (e.g. the unit tests construct `Handshake { extension_ids,
metadata_size, extra }`). -/

/-- BEP 10 handshake: name → numeric id mapping, optional metadata size and
the preserved unknown top-level keys. -/
structure Handshake where
  extension_ids : List (List Nat × Nat)
  metadata_size : Option Nat
  extra : EntryList

/-- BEP 9 metadata message: `Request`, `Data` (with raw payload suffix) or
`Reject`. -/
inductive Metadata where
  | request (piece : Nat)
  | data (piece : Nat) (total_size : Nat) (payload : List Nat)
  | reject (piece : Nat)

/-- A compact endpoint: raw address bytes (4 for IPv4, 16 for IPv6) and a
16-bit port. -/
structure PeerContactInfo where
  addr : List Nat
  port : Nat

/-- BEP 11 peer exchange message with the six compact fields of §3. -/
structure PeerExchange where
  added : List PeerContactInfo
  added_f : List Nat
  added6 : List PeerContactInfo
  added6_f : List Nat
  dropped : List PeerContactInfo
  dropped6 : List PeerContactInfo

/-- Translated from `Message` in `lib.rs` (tagged union over the three
extension messages). -/
inductive Message where
  | handshake (h : Handshake)
  | metadata (m : Metadata)
  | peerExchange (p : PeerExchange)

/-- Modelled from the spec: the local extension id of the handshake codec.
The constants `Handshake::ID`, `Metadata::ID`, `PeerExchange::ID` live in the
missing codec submodules; §2 fixes Handshake = 0, Metadata = 1,
Peer Exchange = 2, matching the registry array comment in `lib.rs` ("the
array index also serves as our extension id"). -/
def Handshake.ID : Nat := 0

/-- Modelled from the spec: the local extension id of the metadata codec. -/
def Metadata.ID : Nat := 1

/-- Modelled from the spec: the local extension id of the peer exchange
codec. -/
def PeerExchange.ID : Nat := 2

/-- Association-list lookup used for `peer_handshake.extension_ids.get`. -/
def assocLookup : List (List Nat × Nat) → List Nat → Option Nat
  | [], _ => none
  | (k, v) :: tl, key => if k = key then some v else assocLookup tl key

/-! ### Handshake codec (BEP 10)

Modelled from the spec (§4.3): wire form is a single bencode dictionary;
`"m"` maps names to integer ids in [0, 255] (outside fails
`InvalidExtensionId`), `"metadata_size"` is an optional non-negative integer
(negative fails `InvalidMetadataSize`), all other keys are preserved into
`extra`. -/

/-- Convert the entries of the `"m"` dictionary into the id list, validating
the [0, 255] range. -/
def idsOfEntries : EntryList → Except SerdeError (List (List Nat × Nat))
  | .nil => .ok []
  | .cons k v tl =>
    match v with
    | .int i =>
      if 0 ≤ i ∧ i ≤ 255 then
        match idsOfEntries tl with
        | .ok ids => .ok ((k, i.toNat) :: ids)
        | .error e => .error e
      else .error (.custom (.invalidExtensionId i))
    | v => .error (.custom (.expectInteger v))

/-- Interpret the optional `"m"` value. -/
def extractIds : Option Value → Except SerdeError (List (List Nat × Nat))
  | none => .ok []
  | some (.dict mes) => idsOfEntries mes
  | some v => .error (.custom (.expectDictionary v))

/-- Interpret the optional `"metadata_size"` value. -/
def extractMsize : Option Value → Except SerdeError (Option Nat)
  | none => .ok none
  | some (.int i) =>
    if 0 ≤ i then .ok (some i.toNat) else .error (.custom (.invalidMetadataSize i))
  | some v => .error (.custom (.expectInteger v))

/-- Keys that are not consumed by a named handshake field. -/
def notRecognizedKey (k : List Nat) : Bool :=
  if k = mKey then false else if k = metadataSizeKey then false else true

def Handshake.ofValue : Value → Except SerdeError Handshake
  | .dict es => do
    let ids ← extractIds (lookupE es mKey)
    let msize ← extractMsize (lookupE es metadataSizeKey)
    return ⟨ids, msize, filterE notRecognizedKey es⟩
  | v => .error (.custom (.expectDictionary v))

/-- Decode a handshake payload: parse one bencode value consuming the whole
buffer (strict or lenient mode), then interpret the dictionary. -/
def Handshake.fromBytesWith (strict : Bool) (b : List Nat) : Except SerdeError Handshake :=
  match parseVal strict b.length b with
  | some (v, []) => Handshake.ofValue v
  | some (_, _ :: _) => .error (.parseFailure ("trailing bytes"))
  | none => .error (.parseFailure ("malformed bencode"))

/-- `serde_bencode::from_bytes` specialized to `Handshake`. -/
def Handshake.fromBytes : List Nat → Except SerdeError Handshake :=
  Handshake.fromBytesWith true

/-- `serde_bencode::from_bytes_lenient_two_pass` specialized to `Handshake`. -/
def Handshake.fromBytesLenient : List Nat → Except SerdeError Handshake :=
  Handshake.fromBytesWith false

/-- The id list as a bencode dictionary. -/
def idsToEntries : List (List Nat × Nat) → EntryList
  | [] => .nil
  | (k, v) :: tl => .cons k (.int (v : Int)) (idsToEntries tl)

/-- Encode a handshake: the extras plus `"metadata_size"` (when present) plus
`"m"`, keys in canonical sorted order. -/
def Handshake.toValue (h : Handshake) : Value :=
  .dict (insertE mKey (.dict (idsToEntries h.extension_ids))
    (match h.metadata_size with
     | none => h.extra
     | some n => insertE metadataSizeKey (.int (n : Int)) h.extra))

def Handshake.encode (h : Handshake) : List Nat :=
  encodeValue h.toValue

/-- Strictly increasing id-dictionary keys. -/
def sortedKeyList : List (List Nat × Nat) → Bool
  | [] => true
  | [_] => true
  | (k, _) :: (k', v') :: tl => ltBytes k k' && sortedKeyList ((k', v') :: tl)

/-- Well-formed handshake: exactly the shapes the codec itself can produce
(sorted id keys, ids in [0, 255], canonical sorted extras that do not use the
two recognized keys). -/
def Handshake.wf (h : Handshake) : Bool :=
  sortedKeyList h.extension_ids &&
  h.extension_ids.all (fun p => decide (p.2 ≤ 255)) &&
  entriesSorted h.extra &&
  canonicalEL h.extra &&
  allKeysE notRecognizedKey h.extra

/-! ### Metadata codec (BEP 9)

Modelled from the spec (§4.4): a bencode dictionary with `msg_type`
(0 request / 1 data / 2 reject), `piece`, and for data messages `total_size`
and a raw payload suffix.  Strict mode requires an empty tail on request and
reject; lenient mode discards it. -/

def Metadata.header : Metadata → Value
  | .request p => .dict (.cons msgTypeKey (.int 0) (.cons pieceKey (.int (p : Int)) .nil))
  | .data p t _ =>
    .dict (.cons msgTypeKey (.int 1) (.cons pieceKey (.int (p : Int))
      (.cons totalSizeKey (.int (t : Int)) .nil)))
  | .reject p => .dict (.cons msgTypeKey (.int 2) (.cons pieceKey (.int (p : Int)) .nil))

def Metadata.payloadBytes : Metadata → List Nat
  | .data _ _ pl => pl
  | _ => []

def Metadata.encode (m : Metadata) : List Nat :=
  encodeValue m.header ++ m.payloadBytes

def Metadata.decodeWith (strict : Bool) (b : List Nat) : Except SerdeError Metadata :=
  match parseVal strict b.length b with
  | none => .error (.parseFailure ("malformed bencode"))
  | some (v, rest) =>
    match v with
    | .dict es =>
      match lookupE es msgTypeKey with
      | none => .error (.custom (.missingDictionaryKey ("msg_type")))
      | some (.int t) =>
        match lookupE es pieceKey with
        | none => .error (.custom (.missingDictionaryKey ("piece")))
        | some (.int p) =>
          if p < 0 then .error (.custom (.invalidMetadataPiece p))
          else if t = 0 then
            if strict ∧ rest ≠ [] then .error (.parseFailure ("trailing bytes"))
            else .ok (.request p.toNat)
          else if t = 1 then
            match lookupE es totalSizeKey with
            | none => .error (.custom (.missingDictionaryKey ("total_size")))
            | some (.int ts) =>
              if ts < 0 then .error (.custom (.invalidMetadataSize ts))
              else .ok (.data p.toNat ts.toNat rest)
            | some v' => .error (.custom (.expectInteger v'))
          else if t = 2 then
            if strict ∧ rest ≠ [] then .error (.parseFailure ("trailing bytes"))
            else .ok (.reject p.toNat)
          else .error (.custom (.unknownMetadataMessageType t))
        | some v' => .error (.custom (.expectInteger v'))
      | some v' => .error (.custom (.expectInteger v'))
    | v => .error (.custom (.expectDictionary v))

/-- `Metadata::decode` (strict). -/
def Metadata.decode : List Nat → Except SerdeError Metadata :=
  Metadata.decodeWith true

/-- `Metadata::decode_lenient`. -/
def Metadata.decode_lenient : List Nat → Except SerdeError Metadata :=
  Metadata.decodeWith false

/-! ### Peer exchange codec (BEP 11)

Modelled from the spec (§4.5): six compact fields; a compact field whose
length is not a multiple of the endpoint size fails
`ExpectPeerExchangeEndpointsSize`; a flag string whose length differs from
the endpoint count fails `InvalidPeerExchangeEndpoints` in strict mode and is
zero-padded / truncated in lenient mode. -/

def compactBytes : List PeerContactInfo → List Nat
  | [] => []
  | e :: tl => e.addr ++ e.port / 256 :: e.port % 256 :: compactBytes tl

def portOfBytes : List Nat → Nat
  | p0 :: p1 :: _ => p0 * 256 + p1
  | _ => 0

/-- Split a compact byte string into endpoints of address length `alen`
(fuel-structural; fuel at least the byte length suffices). -/
def parseCompact (alen : Nat) : Nat → List Nat → List PeerContactInfo
  | 0, _ => []
  | _ + 1, [] => []
  | f + 1, l =>
    ⟨(l.take (alen + 2)).take alen, portOfBytes ((l.take (alen + 2)).drop alen)⟩ ::
      parseCompact alen f (l.drop (alen + 2))

def getBytesField (es : EntryList) (key : List Nat) : Except SerdeError (List Nat) :=
  match lookupE es key with
  | none => .ok []
  | some (.str s) => .ok s
  | some v => .error (.custom (.expectByteString v))

def endpointsOfBytes (alen : Nat) (bytes : List Nat) :
    Except SerdeError (List PeerContactInfo) :=
  if bytes.length % (alen + 2) = 0 then .ok (parseCompact alen bytes.length bytes)
  else .error (.custom (.expectPeerExchangeEndpointsSize bytes.length (alen + 2)))

def fixFlags (strict : Bool) (flags : List Nat) (n : Nat) : Except SerdeError (List Nat) :=
  if flags.length = n then .ok flags
  else if strict then .error (.custom (.invalidPeerExchangeEndpoints flags))
  else .ok (flags.take n ++ List.replicate (n - flags.length) 0)

def PeerExchange.ofEntries (strict : Bool) (es : EntryList) :
    Except SerdeError PeerExchange := do
  let addedBytes ← getBytesField es addedKey
  let added ← endpointsOfBytes 4 addedBytes
  let addedFRaw ← getBytesField es addedFKey
  let added_f ← fixFlags strict addedFRaw added.length
  let added6Bytes ← getBytesField es added6Key
  let added6 ← endpointsOfBytes 16 added6Bytes
  let added6FRaw ← getBytesField es added6FKey
  let added6_f ← fixFlags strict added6FRaw added6.length
  let droppedBytes ← getBytesField es droppedKey
  let dropped ← endpointsOfBytes 4 droppedBytes
  let dropped6Bytes ← getBytesField es dropped6Key
  let dropped6 ← endpointsOfBytes 16 dropped6Bytes
  return ⟨added, added_f, added6, added6_f, dropped, dropped6⟩

def PeerExchange.fromBytesWith (strict : Bool) (b : List Nat) :
    Except SerdeError PeerExchange :=
  match parseVal strict b.length b with
  | some (Value.dict es, []) => PeerExchange.ofEntries strict es
  | some (Value.dict _, _ :: _) => .error (.parseFailure ("trailing bytes"))
  | some (v, _) => .error (.custom (.expectDictionary v))
  | none => .error (.parseFailure ("malformed bencode"))

/-- `serde_bencode::from_bytes` specialized to `PeerExchange`. -/
def PeerExchange.fromBytes : List Nat → Except SerdeError PeerExchange :=
  PeerExchange.fromBytesWith true

/-- `serde_bencode::from_bytes_lenient_two_pass` specialized to
`PeerExchange`. -/
def PeerExchange.fromBytesLenient : List Nat → Except SerdeError PeerExchange :=
  PeerExchange.fromBytesWith false

def PeerExchange.toValue (p : PeerExchange) : Value :=
  .dict (.cons addedKey (.str (compactBytes p.added))
    (.cons addedFKey (.str p.added_f)
      (.cons added6Key (.str (compactBytes p.added6))
        (.cons added6FKey (.str p.added6_f)
          (.cons droppedKey (.str (compactBytes p.dropped))
            (.cons dropped6Key (.str (compactBytes p.dropped6)) .nil))))))

def PeerExchange.encode (p : PeerExchange) : List Nat :=
  encodeValue p.toValue

def wfEndpoint (alen : Nat) (e : PeerContactInfo) : Bool :=
  decide (e.addr.length = alen) && decide (e.port < 65536)

/-- Well-formed peer exchange message: address lengths and ports in range,
flag strings exactly one byte per endpoint. -/
def PeerExchange.wf (p : PeerExchange) : Bool :=
  p.added.all (wfEndpoint 4) && decide (p.added_f.length = p.added.length) &&
  p.added6.all (wfEndpoint 16) && decide (p.added6_f.length = p.added6.length) &&
  p.dropped.all (wfEndpoint 4) && p.dropped6.all (wfEndpoint 16)

/-! ### Strict decode with lenient fallback (`decode_lenient!` in `lib.rs`) -/

/-- Translated from the `decode_lenient!` macro and the `TryFrom<&[u8]>`
implementations of `lib.rs`: try the strict decoder; on failure run the
lenient one, and if that also fails report the original strict error. -/
def decodeWithFallback {α : Type} (strict lenient : List Nat → Except SerdeError α)
    (b : List Nat) : Except SerdeError α :=
  match strict b with
  | .ok v => .ok v
  | .error e =>
    match lenient b with
    | .ok v => .ok v
    | .error _ => .error e

/-- `TryFrom<&[u8]> for Handshake` in `lib.rs`. -/
def Handshake.tryFrom : List Nat → Except SerdeError Handshake :=
  decodeWithFallback Handshake.fromBytes Handshake.fromBytesLenient

/-- `TryFrom<&[u8]> for Metadata` in `lib.rs`. -/
def Metadata.tryFrom : List Nat → Except SerdeError Metadata :=
  decodeWithFallback Metadata.decode Metadata.decode_lenient

/-- `TryFrom<&[u8]> for PeerExchange` in `lib.rs`. -/
def PeerExchange.tryFrom : List Nat → Except SerdeError PeerExchange :=
  decodeWithFallback PeerExchange.fromBytes PeerExchange.fromBytesLenient

/-! ### Message, registry and dispatch (translated from `lib.rs`) -/

/-- `Message::id` in `lib.rs`. -/
def Message.id : Message → Nat
  | .handshake _ => Handshake.ID
  | .metadata _ => Metadata.ID
  | .peerExchange _ => PeerExchange.ID

/-- Translated from the `Extension` struct of `lib.rs`; the enable-predicate
reads the process configuration, passed here explicitly. -/
structure Extension where
  name : List Nat
  is_enabled : Config → Bool
  decode : List Nat → Except SerdeError Message

/-- Registry entry 0: BEP 10 handshake (from the `EXTENSIONS` array). -/
def handshakeExtension : Extension where
  name := []
  is_enabled := fun _ => true
  decode := fun buffer => (Handshake.tryFrom buffer).map Message.handshake

/-- Registry entry 1: BEP 9 metadata (from the `EXTENSIONS` array). -/
def metadataExtension : Extension where
  name := utMetadataName
  is_enabled := fun cfg => cfg.enable_metadata
  decode := fun buffer => (Metadata.tryFrom buffer).map Message.metadata

/-- Registry entry 2: BEP 11 peer exchange (from the `EXTENSIONS` array). -/
def pexExtension : Extension where
  name := utPexName
  is_enabled := fun cfg => cfg.enable_peer_exchange
  decode := fun buffer => (PeerExchange.tryFrom buffer).map Message.peerExchange

/-- The `EXTENSIONS` registry of `lib.rs`; the index is the local extension
id. -/
def EXTENSIONS : List Extension :=
  [handshakeExtension, metadataExtension, pexExtension]

/-- `NUM_EXTENSIONS` in `lib.rs`. -/
def NUM_EXTENSIONS : Nat := 3

/-- The free function `decode(id, buffer)` of `lib.rs`: registry lookup,
enable gate, then the entry's decoder. -/
def decode (cfg : Config) (id : Nat) (buffer : List Nat) : Except SerdeError Message :=
  match EXTENSIONS[id]? with
  | none => .error (.custom (.unknownExtensionId id))
  | some ext =>
    if ext.is_enabled cfg then ext.decode buffer
    else .error (.custom (.expectExtensionEnabled id))

theorem Message.id_lt (m : Message) : m.id < NUM_EXTENSIONS := by
  cases m <;> simp [Message.id, Handshake.ID, Metadata.ID, PeerExchange.ID, NUM_EXTENSIONS]

/-- `Message::is_enabled` in `lib.rs`: the enable-predicate of the registry
entry at the message's id. -/
def Message.is_enabled (cfg : Config) (m : Message) : Bool :=
  (EXTENSIONS.get ⟨m.id, Message.id_lt m⟩).is_enabled cfg

/-- `Message::encode`: each message kind's canonical encoding. -/
def Message.encode : Message → List Nat
  | .handshake h => h.encode
  | .metadata m => m.encode
  | .peerExchange p => p.encode

/-- Well-formed message (the shapes the codec itself produces). -/
def Message.wf : Message → Bool
  | .handshake h => h.wf
  | .metadata _ => true
  | .peerExchange p => p.wf

/-- Outcome of a call that may panic instead of returning. -/
inductive PanicOr (α : Type) where
  | panics
  | returns (val : α)

/-- `TryFrom<&'a [u8]> for Message` in `lib.rs`: the body is
`std::unreachable!()`, i.e. it panics unconditionally for every buffer. -/
def Message.tryFromBytes (_ : List Nat) : PanicOr Message :=
  .panics

/-! ### The identifier map (translated from `ExtensionIdMap` in `lib.rs`) -/

/-- `ExtensionIdMap` of `lib.rs`: `map: [u8; NUM_EXTENSIONS - 1]`, position
`i` holding the peer's id for local extension `i + 1`. -/
structure ExtensionIdMap where
  map : Fin (NUM_EXTENSIONS - 1) → Nat

/-- `ExtensionIdMap::new` / `Default`: all zeros. -/
def ExtensionIdMap.new : ExtensionIdMap :=
  ⟨fun _ => 0⟩

/-- Write one slot of the array (no-op outside bounds, which the update loop
never exercises). -/
def writeSlot (m : ExtensionIdMap) (i : Nat) (v : Nat) : ExtensionIdMap :=
  ⟨fun j => if j.val = i then v else m.map j⟩

/-- The loop body of `ExtensionIdMap::update`, iterating the registry with
its index. -/
def updateFrom (peer : Handshake) : Nat → List Extension → ExtensionIdMap → ExtensionIdMap
  | _, [], acc => acc
  | id, ext :: tl, acc =>
    updateFrom peer (id + 1) tl
      (if id = 0 then acc
       else
         match assocLookup peer.extension_ids ext.name with
         | some pid => writeSlot acc (id - 1) pid
         | none => acc)

/-- `ExtensionIdMap::update`: for every named registry entry present in the
peer handshake, store the peer's id; absent entries are untouched. -/
def ExtensionIdMap.update (self : ExtensionIdMap) (peer : Handshake) : ExtensionIdMap :=
  updateFrom peer 0 EXTENSIONS self

theorem sub_one_lt_pred (id : Nat) (h : id < NUM_EXTENSIONS) :
    id - 1 < NUM_EXTENSIONS - 1 := by
  simp only [NUM_EXTENSIONS] at h ⊢
  omega

/-- `ExtensionIdMap::get`: id 0 always maps to 0; otherwise the stored value
if non-zero, else `None`.  The bound mirrors the array access `map[id - 1]`,
which `lib.rs` only ever performs at registry indices. -/
def ExtensionIdMap.get (self : ExtensionIdMap) (id : Nat) (h : id < NUM_EXTENSIONS) :
    Option Nat :=
  if id = 0 then some 0
  else
    let pid := self.map ⟨id - 1, sub_one_lt_pred id h⟩
    if pid ≠ 0 then some pid else none

/-- `ExtensionIdMap::peer_extensions`: booleans derived from `get` on each
named extension. -/
def ExtensionIdMap.peer_extensions (self : ExtensionIdMap) : Enabled :=
  Enabled.new (self.get Metadata.ID (by decide)).isSome
    (self.get PeerExchange.ID (by decide)).isSome

/-- `ExtensionIdMap::map` (the method; named `mapMsg` here because the Lean
structure field `map` occupies that name): `get` at the message's id. -/
def ExtensionIdMap.mapMsg (self : ExtensionIdMap) (message : Message) : Option Nat :=
  self.get message.id (Message.id_lt message)

/-! ### Error-shape lemmas for the handshake decode pipeline -/

theorem idsOfEntries_no_enable (mes : EntryList) (i : Nat) :
    idsOfEntries mes ≠ .error (.custom (.expectExtensionEnabled i)) := by
  cases mes with
  | nil => simp [idsOfEntries]
  | cons k v tl =>
    cases v with
    | int j =>
      by_cases hr : 0 ≤ j ∧ j ≤ 255
      · cases htl : idsOfEntries tl with
        | ok ids => simp [idsOfEntries, hr, htl]
        | error e =>
          have h2 := idsOfEntries_no_enable tl i
          rw [htl] at h2
          simp only [idsOfEntries, if_pos hr, htl]
          simpa using h2
      · simp [idsOfEntries, hr]
    | str s => simp [idsOfEntries]
    | list vs => simp [idsOfEntries]
    | dict es => simp [idsOfEntries]

theorem extractIds_no_enable (o : Option Value) (i : Nat) :
    extractIds o ≠ .error (.custom (.expectExtensionEnabled i)) := by
  cases o with
  | none => simp [extractIds]
  | some v =>
    cases v with
    | int j => simp [extractIds]
    | str s => simp [extractIds]
    | list vs => simp [extractIds]
    | dict mes => exact idsOfEntries_no_enable mes i

theorem extractMsize_no_enable (o : Option Value) (i : Nat) :
    extractMsize o ≠ .error (.custom (.expectExtensionEnabled i)) := by
  cases o with
  | none => simp [extractMsize]
  | some v =>
    cases v with
    | int j =>
      by_cases hr : (0 : Int) ≤ j
      · simp [extractMsize, hr]
      · simp [extractMsize, hr]
    | str s => simp [extractMsize]
    | list vs => simp [extractMsize]
    | dict mes => simp [extractMsize]

theorem handshake_ofValue_no_enable (v : Value) (i : Nat) :
    Handshake.ofValue v ≠ .error (.custom (.expectExtensionEnabled i)) := by
  cases v with
  | int j => simp [Handshake.ofValue]
  | str s => simp [Handshake.ofValue]
  | list vs => simp [Handshake.ofValue]
  | dict es =>
    cases h1 : extractIds (lookupE es mKey) with
    | error e =>
      have := extractIds_no_enable (lookupE es mKey) i
      rw [h1] at this
      simp only [Handshake.ofValue, h1, bind, Except.bind]
      simpa using this
    | ok ids =>
      cases h2 : extractMsize (lookupE es metadataSizeKey) with
      | error e =>
        have := extractMsize_no_enable (lookupE es metadataSizeKey) i
        rw [h2] at this
        simp only [Handshake.ofValue, h1, h2, bind, Except.bind]
        simpa using this
      | ok msize => simp [Handshake.ofValue, h1, h2, bind, Except.bind, pure, Except.pure]

theorem handshake_fromBytesWith_no_enable (s : Bool) (b : List Nat) (i : Nat) :
    Handshake.fromBytesWith s b ≠ .error (.custom (.expectExtensionEnabled i)) := by
  unfold Handshake.fromBytesWith
  cases hp : parseVal s b.length b with
  | none => simp
  | some pr =>
    obtain ⟨v, rest⟩ := pr
    cases rest with
    | nil => exact handshake_ofValue_no_enable v i
    | cons a tl => simp

theorem handshake_tryFrom_no_enable (b : List Nat) (i : Nat) :
    Handshake.tryFrom b ≠ .error (.custom (.expectExtensionEnabled i)) := by
  unfold Handshake.tryFrom decodeWithFallback
  cases h1 : Handshake.fromBytes b with
  | ok r => simp
  | error e =>
    cases h2 : Handshake.fromBytesLenient b with
    | ok r => simp
    | error e' =>
      have := handshake_fromBytesWith_no_enable true b i
      rw [show Handshake.fromBytesWith true = Handshake.fromBytes from rfl, h1] at this
      simpa using this

/-- Classifies a decode outcome as the enable-gate failure
`ExpectExtensionEnabled`. -/
def isEnableGateError : Except SerdeError Message → Bool
  | .error (.custom (.expectExtensionEnabled _)) => true
  | _ => false

theorem isEnableGateError_false_of (e : SerdeError)
    (h : ∀ i, e ≠ .custom (.expectExtensionEnabled i)) :
    isEnableGateError (.error e) = false := by
  cases e with
  | parseFailure msg => rfl
  | custom er => cases er <;> first | rfl | exact absurd rfl (h _)

/-! ### Claim theorems -/

/-- C1: for every id and buffer, `decode(id, buffer)` fails with
`UnknownExtensionId{id}` when `id` is not a registry index (`id ≥ 3`,
covering in particular id 255), fails with `ExpectExtensionEnabled{id}` when
the entry's enable-predicate is false (regardless of the buffer), and
otherwise invokes the entry's decoder on the buffer. -/
theorem decode_registry_dispatch (cfg : Config) (id : Nat) (b : List Nat) :
    (NUM_EXTENSIONS ≤ id →
      decode cfg id b = .error (.custom (.unknownExtensionId id))) ∧
    (∀ ext, EXTENSIONS[id]? = some ext → ext.is_enabled cfg = false →
      decode cfg id b = .error (.custom (.expectExtensionEnabled id))) ∧
    (∀ ext, EXTENSIONS[id]? = some ext → ext.is_enabled cfg = true →
      decode cfg id b = ext.decode b) ∧
    decode cfg 255 b = .error (.custom (.unknownExtensionId 255)) := by
  refine ⟨?_, ?_, ?_, ?_⟩
  · intro hge
    have hnone : EXTENSIONS[id]? = none := by
      apply List.getElem?_eq_none
      simpa [EXTENSIONS, NUM_EXTENSIONS] using hge
    simp [decode, hnone]
  · intro ext hext hen
    simp [decode, hext, hen]
  · intro ext hext hen
    simp [decode, hext, hen]
  · have hnone : EXTENSIONS[255]? = (none : Option Extension) := rfl
    simp [decode, hnone]

/-- Witness for C1: with both extensions disabled, decoding id 1 hits the
enable gate. -/
theorem decode_registry_dispatch_witness :
    decode ⟨false, false⟩ 1 [] = .error (.custom (.expectExtensionEnabled 1)) :=
  (decode_registry_dispatch ⟨false, false⟩ 1 []).2.1 metadataExtension rfl rfl

/-- Identifier maps reachable from `ExtensionIdMap::new` by `update` calls. -/
inductive ReachableIdMap : ExtensionIdMap → Prop
  | new : ReachableIdMap ExtensionIdMap.new
  | update (m : ExtensionIdMap) (peer : Handshake) :
      ReachableIdMap m → ReachableIdMap (m.update peer)

/-- C3: for every reachable identifier map, `get(0) = Some(0)`; for every
local id `1 ≤ i < NUM_EXTENSIONS`, `get(i)` is `Some` of the stored value
when that value is non-zero and `None` when it is zero, and `get(i)` is never
`Some(0)`. -/
theorem extensionIdMap_get_spec (m : ExtensionIdMap) (hr : ReachableIdMap m) :
    m.get 0 (by decide) = some 0 ∧
    ∀ i (h1 : 1 ≤ i) (h2 : i < NUM_EXTENSIONS),
      (m.map ⟨i - 1, sub_one_lt_pred i h2⟩ ≠ 0 →
        m.get i h2 = some (m.map ⟨i - 1, sub_one_lt_pred i h2⟩)) ∧
      (m.map ⟨i - 1, sub_one_lt_pred i h2⟩ = 0 → m.get i h2 = none) ∧
      m.get i h2 ≠ some 0 := by
  clear hr
  refine ⟨rfl, ?_⟩
  intro i h1 h2
  have hne : ¬ i = 0 := by omega
  refine ⟨?_, ?_, ?_⟩
  · intro hnz
    simp [ExtensionIdMap.get, hne, hnz]
  · intro hz
    simp [ExtensionIdMap.get, hne, hz]
  · intro hcon
    by_cases hnz : m.map ⟨i - 1, sub_one_lt_pred i h2⟩ = 0
    · simp [ExtensionIdMap.get, hne, hnz] at hcon
    · simp [ExtensionIdMap.get, hne, hnz] at hcon

/-- Witness for C3: the fresh map. -/
theorem extensionIdMap_get_spec_witness :
    ExtensionIdMap.new.get 0 (by decide) = some 0 :=
  (extensionIdMap_get_spec ExtensionIdMap.new ReachableIdMap.new).1

/-- C6: registry entry 0 (the handshake extension) has empty name and an
always-true enable-predicate; `decode(0, buffer)` never fails with
`ExpectExtensionEnabled`; `is_enabled` on any handshake message is true for
every configuration. -/
theorem handshake_entry_always_enabled :
    handshakeExtension.name = [] ∧
    (∀ cfg, handshakeExtension.is_enabled cfg = true) ∧
    (∀ cfg b, isEnableGateError (decode cfg 0 b) = false) ∧
    (∀ cfg h, Message.is_enabled cfg (.handshake h) = true) := by
  refine ⟨rfl, fun _ => rfl, ?_, fun _ _ => rfl⟩
  intro cfg b
  have hdec : decode cfg 0 b = (Handshake.tryFrom b).map Message.handshake := by
    simp [decode, handshakeExtension]
    rfl
  rw [hdec]
  cases h1 : Handshake.tryFrom b with
  | ok r => rfl
  | error e =>
    simp only [Except.map]
    apply isEnableGateError_false_of
    intro i hcon
    exact handshake_tryFrom_no_enable b i (by rw [h1, hcon])

/-- C7: `peer_extensions()` is exactly the pair of `isSome` projections of
`get` at the two named extensions' ids. -/
theorem peer_extensions_eq (m : ExtensionIdMap) :
    m.peer_extensions = Enabled.new (m.get Metadata.ID (by decide)).isSome
      (m.get PeerExchange.ID (by decide)).isSome := rfl

/-- C8: `map(message) = get(message.id())`, and the message ids are the fixed
registry indices 0 (handshake), 1 (metadata), 2 (peer exchange). -/
theorem map_message_eq_get :
    (∀ (m : ExtensionIdMap) (msg : Message),
      m.mapMsg msg = m.get msg.id (Message.id_lt msg)) ∧
    (∀ h, Message.id (.handshake h) = 0) ∧
    (∀ md, Message.id (.metadata md) = 1) ∧
    (∀ p, Message.id (.peerExchange p) = 2) :=
  ⟨fun _ _ => rfl, fun _ => rfl, fun _ => rfl, fun _ => rfl⟩

/-- C9: the `TryFrom<&[u8]>` implementation on `Message` panics
(`unreachable!()`) for every input buffer. -/
theorem message_tryFromBytes_panics (b : List Nat) :
    Message.tryFromBytes b = PanicOr.panics := rfl

/-- C10: a fresh identifier map maps both named extensions to unsupported
and id 0 to `Some(0)`. -/
theorem extensionIdMap_new_unsupported :
    ExtensionIdMap.new.get 1 (by decide) = none ∧
    ExtensionIdMap.new.get 2 (by decide) = none ∧
    ExtensionIdMap.new.peer_extensions = Enabled.new false false ∧
    ExtensionIdMap.new.get 0 (by decide) = some 0 :=
  ⟨rfl, rfl, rfl, rfl⟩

/-- C2: after `update(peer_handshake)`, each named extension present in the
peer handshake with value `v` reads back as `Some v` (when `v ≠ 0`) or `None`
(when `v = 0`); named extensions absent from the handshake are unchanged. -/
theorem extensionIdMap_update_get (m : ExtensionIdMap) (peer : Handshake) (i : Nat)
    (h1 : 1 ≤ i) (h2 : i < NUM_EXTENSIONS) :
    (∀ v, assocLookup peer.extension_ids (EXTENSIONS.get ⟨i, h2⟩).name = some v →
      (m.update peer).get i h2 = if v ≠ 0 then some v else none) ∧
    (assocLookup peer.extension_ids (EXTENSIONS.get ⟨i, h2⟩).name = none →
      (m.update peer).get i h2 = m.get i h2) := by
  have h3 : i = 1 ∨ i = 2 := by
    simp only [NUM_EXTENSIONS] at h2
    omega
  have hupd : ∀ acc : ExtensionIdMap, m.update peer =
      (match assocLookup peer.extension_ids utPexName with
       | some pid => writeSlot
          (match assocLookup peer.extension_ids utMetadataName with
           | some pid' => writeSlot m 0 pid'
           | none => m) 1 pid
       | none =>
          (match assocLookup peer.extension_ids utMetadataName with
           | some pid' => writeSlot m 0 pid'
           | none => m)) := by
    intro _
    cases hm : assocLookup peer.extension_ids utMetadataName with
    | some pid' =>
      cases hp : assocLookup peer.extension_ids utPexName with
      | some pid =>
        simp [ExtensionIdMap.update, EXTENSIONS, updateFrom, handshakeExtension,
          metadataExtension, pexExtension, hm, hp]
      | none =>
        simp [ExtensionIdMap.update, EXTENSIONS, updateFrom, handshakeExtension,
          metadataExtension, pexExtension, hm, hp]
    | none =>
      cases hp : assocLookup peer.extension_ids utPexName with
      | some pid =>
        simp [ExtensionIdMap.update, EXTENSIONS, updateFrom, handshakeExtension,
          metadataExtension, pexExtension, hm, hp]
      | none =>
        simp [ExtensionIdMap.update, EXTENSIONS, updateFrom, handshakeExtension,
          metadataExtension, pexExtension, hm, hp]
  rcases h3 with rfl | rfl
  · have hname : (EXTENSIONS.get ⟨1, h2⟩).name = utMetadataName := rfl
    rw [hname]
    constructor
    · intro v hv
      rw [hupd m]
      cases hp : assocLookup peer.extension_ids utPexName with
      | some pid =>
        simp [hv, ExtensionIdMap.get, writeSlot]
      | none =>
        simp [hv, ExtensionIdMap.get, writeSlot]
    · intro hv
      rw [hupd m]
      cases hp : assocLookup peer.extension_ids utPexName with
      | some pid =>
        simp [hv, ExtensionIdMap.get, writeSlot]
      | none =>
        simp [hv, ExtensionIdMap.get, writeSlot]
  · have hname : (EXTENSIONS.get ⟨2, h2⟩).name = utPexName := rfl
    rw [hname]
    constructor
    · intro v hv
      rw [hupd m]
      cases hm : assocLookup peer.extension_ids utMetadataName with
      | some pid' =>
        simp [hv, ExtensionIdMap.get, writeSlot]
      | none =>
        simp [hv, ExtensionIdMap.get, writeSlot]
    · intro hv
      rw [hupd m]
      cases hm : assocLookup peer.extension_ids utMetadataName with
      | some pid' =>
        simp [hv, ExtensionIdMap.get, writeSlot]
      | none =>
        simp [hv, ExtensionIdMap.get, writeSlot]

/-- Witness for C2: a handshake advertising `ut_metadata` = 99 on a fresh
map. -/
theorem extensionIdMap_update_get_witness :
    (ExtensionIdMap.new.update ⟨[(utMetadataName, 99)], none, .nil⟩).get 1 (by decide) =
      if (99 : Nat) ≠ 0 then some 99 else none :=
  (extensionIdMap_update_get ExtensionIdMap.new ⟨[(utMetadataName, 99)], none, .nil⟩ 1
    (by decide) (by decide)).1 99 rfl

theorem decodeWithFallback_spec {α : Type} (s l : List Nat → Except SerdeError α)
    (b : List Nat) :
    (∀ r, s b = .ok r → decodeWithFallback s l b = .ok r) ∧
    (∀ e r, s b = .error e → l b = .ok r → decodeWithFallback s l b = .ok r) ∧
    (∀ e e', s b = .error e → l b = .error e' → decodeWithFallback s l b = .error e) := by
  refine ⟨?_, ?_, ?_⟩
  · intro r hs
    simp [decodeWithFallback, hs]
  · intro e r hs hl
    simp [decodeWithFallback, hs, hl]
  · intro e e' hs hl
    simp [decodeWithFallback, hs, hl]

/-- C4: for each of the three message kinds, decoding first attempts the
strict parse and returns its result on success; on strict failure the lenient
parse is attempted, and if it also fails the original strict error (not the
lenient one) is returned. -/
theorem strict_then_lenient_fallback (b : List Nat) :
    ((∀ r, Handshake.fromBytes b = .ok r → Handshake.tryFrom b = .ok r) ∧
     (∀ e r, Handshake.fromBytes b = .error e → Handshake.fromBytesLenient b = .ok r →
       Handshake.tryFrom b = .ok r) ∧
     (∀ e e', Handshake.fromBytes b = .error e → Handshake.fromBytesLenient b = .error e' →
       Handshake.tryFrom b = .error e)) ∧
    ((∀ r, Metadata.decode b = .ok r → Metadata.tryFrom b = .ok r) ∧
     (∀ e r, Metadata.decode b = .error e → Metadata.decode_lenient b = .ok r →
       Metadata.tryFrom b = .ok r) ∧
     (∀ e e', Metadata.decode b = .error e → Metadata.decode_lenient b = .error e' →
       Metadata.tryFrom b = .error e)) ∧
    ((∀ r, PeerExchange.fromBytes b = .ok r → PeerExchange.tryFrom b = .ok r) ∧
     (∀ e r, PeerExchange.fromBytes b = .error e → PeerExchange.fromBytesLenient b = .ok r →
       PeerExchange.tryFrom b = .ok r) ∧
     (∀ e e', PeerExchange.fromBytes b = .error e →
       PeerExchange.fromBytesLenient b = .error e' →
       PeerExchange.tryFrom b = .error e)) :=
  ⟨decodeWithFallback_spec Handshake.fromBytes Handshake.fromBytesLenient b,
   decodeWithFallback_spec Metadata.decode Metadata.decode_lenient b,
   decodeWithFallback_spec PeerExchange.fromBytes PeerExchange.fromBytesLenient b⟩

/-- Witness for C4: on the empty buffer both the strict and the lenient
handshake parses fail, and `tryFrom` reports the strict error. -/
theorem strict_then_lenient_fallback_witness :
    Handshake.tryFrom [] = .error (.parseFailure ("malformed bencode")) :=
  (strict_then_lenient_fallback []).1.2.2 (.parseFailure ("malformed bencode"))
    (.parseFailure ("malformed bencode")) rfl rfl

/-! ### Round-trip lemmas: handshake -/

theorem hasKeyE_false_of_allKeys (p : List Nat → Bool) (es : EntryList) (k : List Nat)
    (hall : allKeysE p es = true) (hk : p k = false) : hasKeyE es k = false := by
  cases es with
  | nil => rfl
  | cons k' v' tl =>
    simp only [allKeysE, Bool.and_eq_true] at hall
    by_cases hkk : k' = k
    · rw [← hkk] at hk
      rw [hall.1] at hk
      exact Bool.noConfusion hk
    · simp only [hasKeyE, if_neg hkk]
      exact hasKeyE_false_of_allKeys p tl k hall.2 hk

theorem idsToEntries_sorted (ids : List (List Nat × Nat))
    (hs : sortedKeyList ids = true) :
    entriesSorted (idsToEntries ids) = true := by
  cases ids with
  | nil => rfl
  | cons kv tl =>
    obtain ⟨k, v⟩ := kv
    cases tl with
    | nil => rfl
    | cons kv' tl2 =>
      obtain ⟨k', v'⟩ := kv'
      simp only [sortedKeyList, Bool.and_eq_true] at hs
      have ih := idsToEntries_sorted ((k', v') :: tl2) hs.2
      simp only [idsToEntries, entriesSorted, headKeyLt, Bool.and_eq_true] at ih ⊢
      exact ⟨hs.1, ih⟩

theorem idsToEntries_canonical (ids : List (List Nat × Nat)) :
    canonicalEL (idsToEntries ids) = true := by
  cases ids with
  | nil => rfl
  | cons kv tl =>
    obtain ⟨k, v⟩ := kv
    simp only [idsToEntries, canonicalEL, canonicalV, Bool.and_eq_true]
    exact ⟨trivial, idsToEntries_canonical tl⟩

theorem idsOfEntries_round (ids : List (List Nat × Nat))
    (h255 : ids.all (fun p => decide (p.2 ≤ 255)) = true) :
    idsOfEntries (idsToEntries ids) = .ok ids := by
  cases ids with
  | nil => rfl
  | cons kv tl =>
    obtain ⟨k, v⟩ := kv
    simp only [List.all_cons, Bool.and_eq_true, decide_eq_true_eq] at h255
    have ih := idsOfEntries_round tl h255.2
    have hr : (0 : Int) ≤ (v : Int) ∧ (v : Int) ≤ 255 := by
      constructor
      · exact_mod_cast Nat.zero_le v
      · exact_mod_cast h255.1
    have htn : ((v : Int)).toNat = v := by omega
    simp [idsToEntries, idsOfEntries, hr, ih, htn]

theorem handshake_round_core (ids : List (List Nat × Nat)) (msize : Option Nat)
    (extra base : EntryList)
    (hsortIds : sortedKeyList ids = true)
    (hids255 : ids.all (fun p => decide (p.2 ≤ 255)) = true)
    (hsb : entriesSorted base = true)
    (hcb : canonicalEL base = true)
    (hkb : hasKeyE base mKey = false)
    (hlook : lookupE base metadataSizeKey = msize.map (fun n => Value.int (n : Int)))
    (hfil : filterE notRecognizedKey base = extra) :
    Handshake.fromBytes
      (encodeValue (.dict (insertE mKey (.dict (idsToEntries ids)) base))) =
      .ok ⟨ids, msize, extra⟩ := by
  have hmk : notRecognizedKey mKey = false := by decide
  have hne_mms : mKey ≠ metadataSizeKey := by decide
  have hcanD : canonicalV (.dict (insertE mKey (.dict (idsToEntries ids)) base)) = true := by
    simp only [canonicalV, Bool.and_eq_true]
    constructor
    · exact entriesSorted_insertE _ _ _ hsb hkb
    · apply canonicalEL_insertE
      · simp only [canonicalV, Bool.and_eq_true]
        exact ⟨idsToEntries_sorted ids hsortIds, idsToEntries_canonical ids⟩
      · exact hcb
  have hparse : parseVal true
      (encodeValue (.dict (insertE mKey (.dict (idsToEntries ids)) base))).length
      (encodeValue (.dict (insertE mKey (.dict (idsToEntries ids)) base))) =
      some (.dict (insertE mKey (.dict (idsToEntries ids)) base), []) := by
    have h0 := (parse_round
        (encodeValue (.dict (insertE mKey (.dict (idsToEntries ids)) base))).length).1
      (.dict (insertE mKey (.dict (idsToEntries ids)) base)) []
      (sizeV_le_encode _) hcanD
    simpa using h0
  have hstep : Handshake.fromBytes
      (encodeValue (.dict (insertE mKey (.dict (idsToEntries ids)) base))) =
      Handshake.ofValue (.dict (insertE mKey (.dict (idsToEntries ids)) base)) := by
    unfold Handshake.fromBytes Handshake.fromBytesWith
    rw [hparse]
  rw [hstep]
  have hlm : lookupE (insertE mKey (.dict (idsToEntries ids)) base) mKey =
      some (.dict (idsToEntries ids)) :=
    lookupE_insertE_self _ _ _ hkb
  have hlms : lookupE (insertE mKey (.dict (idsToEntries ids)) base) metadataSizeKey =
      msize.map (fun n => Value.int (n : Int)) := by
    rw [lookupE_insertE_ne _ _ _ _ hne_mms, hlook]
  have hext : extractIds
      (lookupE (insertE mKey (.dict (idsToEntries ids)) base) mKey) = .ok ids := by
    rw [hlm]
    exact idsOfEntries_round ids hids255
  have hms2 : extractMsize
      (lookupE (insertE mKey (.dict (idsToEntries ids)) base) metadataSizeKey) =
      .ok msize := by
    rw [hlms]
    cases msize with
    | none => rfl
    | some n =>
      have h0 : (0 : Int) ≤ (n : Int) := by exact_mod_cast Nat.zero_le n
      have htn : ((n : Int)).toNat = n := by omega
      simp [Option.map, extractMsize, h0, htn]
  have hfil2 : filterE notRecognizedKey (insertE mKey (.dict (idsToEntries ids)) base) =
      extra := by
    rw [filterE_insertE_not _ _ _ _ hmk, hfil]
  simp [Handshake.ofValue, bind, Except.bind, hext, hms2, hfil2, pure, Except.pure]

theorem handshake_encode_round (h : Handshake) (hwf : Handshake.wf h = true) :
    Handshake.fromBytes (Handshake.encode h) = .ok h := by
  obtain ⟨ids, msize, extra⟩ := h
  simp only [Handshake.wf, Bool.and_eq_true] at hwf
  obtain ⟨⟨⟨⟨hsortIds, hids255⟩, hsortX⟩, hcanX⟩, hallX⟩ := hwf
  have hmsk : notRecognizedKey metadataSizeKey = false := by decide
  have hmk : notRecognizedKey mKey = false := by decide
  have hkeyX_m : hasKeyE extra mKey = false :=
    hasKeyE_false_of_allKeys _ _ _ hallX hmk
  have hkeyX_ms : hasKeyE extra metadataSizeKey = false :=
    hasKeyE_false_of_allKeys _ _ _ hallX hmsk
  cases msize with
  | none =>
    have hcore := handshake_round_core ids none extra extra hsortIds hids255
      hsortX hcanX hkeyX_m
      (by simpa [Option.map] using lookupE_eq_none extra metadataSizeKey hkeyX_ms)
      (filterE_all _ _ hallX)
    simpa [Handshake.encode, Handshake.toValue] using hcore
  | some n =>
    have hbase_sorted : entriesSorted (insertE metadataSizeKey (.int (n : Int)) extra) =
        true := entriesSorted_insertE _ _ _ hsortX hkeyX_ms
    have hbase_canon : canonicalEL (insertE metadataSizeKey (.int (n : Int)) extra) =
        true := canonicalEL_insertE _ _ _ rfl hcanX
    have hbase_mkey : hasKeyE (insertE metadataSizeKey (.int (n : Int)) extra) mKey =
        false := by
      rw [hasKeyE_insertE]
      rw [if_neg (by decide : ¬ metadataSizeKey = mKey)]
      exact hkeyX_m
    have hbase_look : lookupE (insertE metadataSizeKey (.int (n : Int)) extra)
        metadataSizeKey = (some n).map (fun n => Value.int (n : Int)) := by
      rw [lookupE_insertE_self _ _ _ hkeyX_ms]
      rfl
    have hbase_fil : filterE notRecognizedKey
        (insertE metadataSizeKey (.int (n : Int)) extra) = extra := by
      rw [filterE_insertE_not _ _ _ _ hmsk]
      exact filterE_all _ _ hallX
    have hcore := handshake_round_core ids (some n) extra
      (insertE metadataSizeKey (.int (n : Int)) extra) hsortIds hids255
      hbase_sorted hbase_canon hbase_mkey hbase_look hbase_fil
    simpa [Handshake.encode, Handshake.toValue] using hcore

/-! ### Round-trip lemmas: metadata -/

theorem metadata_decode_encode (m : Metadata) :
    Metadata.decode (Metadata.encode m) = .ok m := by
  have hne1 : msgTypeKey ≠ pieceKey := by decide
  have hne2 : msgTypeKey ≠ totalSizeKey := by decide
  have hne3 : pieceKey ≠ totalSizeKey := by decide
  have hlt1 : ltBytes msgTypeKey pieceKey = true := by decide
  have hlt2 : ltBytes pieceKey totalSizeKey = true := by decide
  cases m with
  | request p =>
    have hcan : canonicalV (Metadata.header (.request p)) = true := by
      simp [Metadata.header, canonicalV, canonicalEL, entriesSorted, headKeyLt, hlt1]
    have hparse : parseVal true (encodeValue (Metadata.header (.request p))).length
        (encodeValue (Metadata.header (.request p))) =
        some (Metadata.header (.request p), []) := by
      have h0 := (parse_round (encodeValue (Metadata.header (.request p))).length).1
        (Metadata.header (.request p)) [] (sizeV_le_encode _) hcan
      simpa using h0
    have henc : Metadata.encode (.request p) =
        encodeValue (Metadata.header (.request p)) := by
      simp [Metadata.encode, Metadata.payloadBytes]
    have hp0 : ¬ ((p : Int) < 0) := by omega
    have htn : ((p : Int)).toNat = p := by omega
    unfold Metadata.decode Metadata.decodeWith
    rw [henc, hparse]
    simp [Metadata.header, lookupE, hne1, hne2, hne3, hp0, htn]
  | data p t pl =>
    have hcan : canonicalV (Metadata.header (.data p t pl)) = true := by
      simp [Metadata.header, canonicalV, canonicalEL, entriesSorted, headKeyLt, hlt1, hlt2]
    have hparse : parseVal true (Metadata.encode (.data p t pl)).length
        (Metadata.encode (.data p t pl)) =
        some (Metadata.header (.data p t pl), pl) := by
      have hlen : sizeV (Metadata.header (.data p t pl)) ≤
          (Metadata.encode (.data p t pl)).length := by
        calc sizeV (Metadata.header (.data p t pl)) ≤
            (encodeValue (Metadata.header (.data p t pl))).length := sizeV_le_encode _
          _ ≤ (Metadata.encode (.data p t pl)).length := by
            simp [Metadata.encode, Metadata.payloadBytes]
      have h0 := (parse_round (Metadata.encode (.data p t pl)).length).1
        (Metadata.header (.data p t pl)) pl hlen hcan
      simpa [Metadata.encode, Metadata.payloadBytes] using h0
    have hp0 : ¬ ((p : Int) < 0) := by omega
    have ht0 : ¬ ((t : Int) < 0) := by omega
    have htn : ((p : Int)).toNat = p := by omega
    have htn2 : ((t : Int)).toNat = t := by omega
    unfold Metadata.decode Metadata.decodeWith
    rw [hparse]
    simp [Metadata.header, lookupE, hne1, hne2, hne3, hp0, ht0, htn, htn2]
  | reject p =>
    have hcan : canonicalV (Metadata.header (.reject p)) = true := by
      simp [Metadata.header, canonicalV, canonicalEL, entriesSorted, headKeyLt, hlt1]
    have hparse : parseVal true (encodeValue (Metadata.header (.reject p))).length
        (encodeValue (Metadata.header (.reject p))) =
        some (Metadata.header (.reject p), []) := by
      have h0 := (parse_round (encodeValue (Metadata.header (.reject p))).length).1
        (Metadata.header (.reject p)) [] (sizeV_le_encode _) hcan
      simpa using h0
    have henc : Metadata.encode (.reject p) =
        encodeValue (Metadata.header (.reject p)) := by
      simp [Metadata.encode, Metadata.payloadBytes]
    have hp0 : ¬ ((p : Int) < 0) := by omega
    have htn : ((p : Int)).toNat = p := by omega
    unfold Metadata.decode Metadata.decodeWith
    rw [henc, hparse]
    simp [Metadata.header, lookupE, hne1, hne2, hne3, hp0, htn]

/-! ### Round-trip lemmas: peer exchange -/

theorem compactBytes_len_mod (alen : Nat) (eps : List PeerContactInfo)
    (h : ∀ e ∈ eps, e.addr.length = alen) :
    (compactBytes eps).length % (alen + 2) = 0 := by
  induction eps with
  | nil => simp [compactBytes]
  | cons e tl ih =>
    have he : e.addr.length = alen := h e (List.mem_cons_self e tl)
    have htl := ih (fun x hx => h x (List.mem_cons_of_mem e hx))
    have hlen : (compactBytes (e :: tl)).length =
        (alen + 2) + (compactBytes tl).length := by
      simp [compactBytes, he]
      omega
    rw [hlen, Nat.add_mod_left]
    exact htl

theorem parseCompact_round (alen : Nat) (eps : List PeerContactInfo)
    (hwf : ∀ e ∈ eps, e.addr.length = alen) :
    ∀ f, (compactBytes eps).length ≤ f → parseCompact alen f (compactBytes eps) = eps := by
  induction eps with
  | nil =>
    intro f _
    cases f with
    | zero => rfl
    | succ f' => simp [compactBytes, parseCompact]
  | cons e tl ih =>
    intro f hf
    have he : e.addr.length = alen := hwf e (List.mem_cons_self e tl)
    have hwftl : ∀ x ∈ tl, x.addr.length = alen :=
      fun x hx => hwf x (List.mem_cons_of_mem e hx)
    have hceq : compactBytes (e :: tl) =
        (e.addr ++ [e.port / 256, e.port % 256]) ++ compactBytes tl := by
      simp [compactBytes]
    have hchunklen : (e.addr ++ [e.port / 256, e.port % 256]).length = alen + 2 := by
      simp [he]
    have hlen : (compactBytes (e :: tl)).length =
        (alen + 2) + (compactBytes tl).length := by
      rw [hceq]
      simp [hchunklen, he]
      omega
    cases f with
    | zero => omega
    | succ f' =>
      have hne : compactBytes (e :: tl) ≠ [] := by
        rw [hceq]
        intro hcon
        have := congrArg List.length hcon
        simp [hchunklen] at this
      have hie : (compactBytes (e :: tl)).isEmpty = false := by
        cases hh : compactBytes (e :: tl) with
        | nil => exact absurd hh hne
        | cons a b => rfl
      have htake : (compactBytes (e :: tl)).take (alen + 2) =
          e.addr ++ [e.port / 256, e.port % 256] := by
        rw [hceq]
        exact List.take_left' hchunklen
      have hdrop : (compactBytes (e :: tl)).drop (alen + 2) = compactBytes tl := by
        rw [hceq]
        exact List.drop_left' hchunklen
      have htake2 : (e.addr ++ [e.port / 256, e.port % 256]).take alen = e.addr :=
        List.take_left' he
      have hdrop2 : (e.addr ++ [e.port / 256, e.port % 256]).drop alen =
          [e.port / 256, e.port % 256] :=
        List.drop_left' he
      have hport : portOfBytes [e.port / 256, e.port % 256] = e.port := by
        simp [portOfBytes]
        omega
      have hrec := ih hwftl f' (by omega)
      simp only [parseCompact, hie, Bool.false_eq_true, if_false, htake, hdrop,
        htake2, hdrop2, hport, hrec]

theorem pex_encode_round (p : PeerExchange) (hwf : p.wf = true) :
    PeerExchange.fromBytes (PeerExchange.encode p) = .ok p := by
  simp only [PeerExchange.wf, Bool.and_eq_true] at hwf
  obtain ⟨⟨⟨⟨⟨ha, haf⟩, ha6⟩, ha6f⟩, hd⟩, hd6⟩ := hwf
  have haddr : ∀ e ∈ p.added, e.addr.length = 4 := by
    intro e he
    have := List.all_eq_true.mp ha e he
    simp [wfEndpoint] at this
    exact this.1
  have haddr6 : ∀ e ∈ p.added6, e.addr.length = 16 := by
    intro e he
    have := List.all_eq_true.mp ha6 e he
    simp [wfEndpoint] at this
    exact this.1
  have hdaddr : ∀ e ∈ p.dropped, e.addr.length = 4 := by
    intro e he
    have := List.all_eq_true.mp hd e he
    simp [wfEndpoint] at this
    exact this.1
  have hdaddr6 : ∀ e ∈ p.dropped6, e.addr.length = 16 := by
    intro e he
    have := List.all_eq_true.mp hd6 e he
    simp [wfEndpoint] at this
    exact this.1
  have haf' : p.added_f.length = p.added.length := by
    simpa using haf
  have ha6f' : p.added6_f.length = p.added6.length := by
    simpa using ha6f
  have hl1 : ltBytes addedKey addedFKey = true := by decide
  have hl2 : ltBytes addedFKey added6Key = true := by decide
  have hl3 : ltBytes added6Key added6FKey = true := by decide
  have hl4 : ltBytes added6FKey droppedKey = true := by decide
  have hl5 : ltBytes droppedKey dropped6Key = true := by decide
  have hcan : canonicalV p.toValue = true := by
    simp [PeerExchange.toValue, canonicalV, canonicalEL, entriesSorted, headKeyLt,
      hl1, hl2, hl3, hl4, hl5]
  have hparse : parseVal true (encodeValue p.toValue).length (encodeValue p.toValue) =
      some (p.toValue, []) := by
    have h0 := (parse_round (encodeValue p.toValue).length).1 p.toValue []
      (sizeV_le_encode _) hcan
    simpa using h0
  have hstep : PeerExchange.fromBytes (PeerExchange.encode p) =
      PeerExchange.ofEntries true
        (.cons addedKey (.str (compactBytes p.added))
          (.cons addedFKey (.str p.added_f)
            (.cons added6Key (.str (compactBytes p.added6))
              (.cons added6FKey (.str p.added6_f)
                (.cons droppedKey (.str (compactBytes p.dropped))
                  (.cons dropped6Key (.str (compactBytes p.dropped6)) .nil)))))) := by
    unfold PeerExchange.fromBytes PeerExchange.fromBytesWith PeerExchange.encode
    simp only [PeerExchange.toValue] at hparse ⊢
    rw [hparse]
  rw [hstep]
  have hm4 : (compactBytes p.added).length % 6 = 0 := compactBytes_len_mod 4 p.added haddr
  have hm16 : (compactBytes p.added6).length % 18 = 0 :=
    compactBytes_len_mod 16 p.added6 haddr6
  have hdm4 : (compactBytes p.dropped).length % 6 = 0 :=
    compactBytes_len_mod 4 p.dropped hdaddr
  have hdm16 : (compactBytes p.dropped6).length % 18 = 0 :=
    compactBytes_len_mod 16 p.dropped6 hdaddr6
  have hr4 : parseCompact 4 (compactBytes p.added).length (compactBytes p.added) =
      p.added := parseCompact_round 4 p.added haddr _ le_rfl
  have hr16 : parseCompact 16 (compactBytes p.added6).length (compactBytes p.added6) =
      p.added6 := parseCompact_round 16 p.added6 haddr6 _ le_rfl
  have hdr4 : parseCompact 4 (compactBytes p.dropped).length (compactBytes p.dropped) =
      p.dropped := parseCompact_round 4 p.dropped hdaddr _ le_rfl
  have hdr16 : parseCompact 16 (compactBytes p.dropped6).length (compactBytes p.dropped6) =
      p.dropped6 := parseCompact_round 16 p.dropped6 hdaddr6 _ le_rfl
  simp [PeerExchange.ofEntries, getBytesField, lookupE, endpointsOfBytes, fixFlags,
    bind, Except.bind, pure, Except.pure,
    hm4, hm16, hdm4, hdm16, hr4, hr16, hdr4, hdr16, haf', ha6f',
    (by decide : addedKey ≠ addedFKey), (by decide : addedKey ≠ added6Key),
    (by decide : addedKey ≠ added6FKey), (by decide : addedKey ≠ droppedKey),
    (by decide : addedKey ≠ dropped6Key), (by decide : addedFKey ≠ added6Key),
    (by decide : addedFKey ≠ added6FKey), (by decide : addedFKey ≠ droppedKey),
    (by decide : addedFKey ≠ dropped6Key), (by decide : added6Key ≠ added6FKey),
    (by decide : added6Key ≠ droppedKey), (by decide : added6Key ≠ dropped6Key),
    (by decide : added6FKey ≠ droppedKey), (by decide : added6FKey ≠ dropped6Key),
    (by decide : droppedKey ≠ dropped6Key)]

/-- C5: for every well-formed message the codec can produce, decoding the
bytes produced by encoding it (dispatched at the message's own extension id,
with both extensions enabled) yields the same message. -/
theorem decode_encode_roundtrip (m : Message) (hwf : Message.wf m = true) :
    decode ⟨true, true⟩ m.id (Message.encode m) = .ok m := by
  cases m with
  | handshake h =>
    have h1 := handshake_encode_round h (by simpa [Message.wf] using hwf)
    have hstep : decode ⟨true, true⟩ (Message.id (.handshake h))
        (Message.encode (.handshake h)) =
        (Handshake.tryFrom (Handshake.encode h)).map Message.handshake := rfl
    rw [hstep]
    unfold Handshake.tryFrom decodeWithFallback
    rw [show Handshake.fromBytes (Handshake.encode h) = .ok h from h1]
    rfl
  | metadata md =>
    have h1 := metadata_decode_encode md
    have hstep : decode ⟨true, true⟩ (Message.id (.metadata md))
        (Message.encode (.metadata md)) =
        (Metadata.tryFrom (Metadata.encode md)).map Message.metadata := rfl
    rw [hstep]
    unfold Metadata.tryFrom decodeWithFallback
    rw [show Metadata.decode (Metadata.encode md) = .ok md from h1]
    rfl
  | peerExchange p =>
    have h1 := pex_encode_round p (by simpa [Message.wf] using hwf)
    have hstep : decode ⟨true, true⟩ (Message.id (.peerExchange p))
        (Message.encode (.peerExchange p)) =
        (PeerExchange.tryFrom (PeerExchange.encode p)).map Message.peerExchange := rfl
    rw [hstep]
    unfold PeerExchange.tryFrom decodeWithFallback
    rw [show PeerExchange.fromBytes (PeerExchange.encode p) = .ok p from h1]
    rfl

/-- Witness for C5: round-trip of `Metadata::Request{piece: 0}`. -/
theorem decode_encode_roundtrip_witness :
    decode ⟨true, true⟩ (Message.id (.metadata (.request 0)))
      (Message.encode (.metadata (.request 0))) = .ok (.metadata (.request 0)) :=
  decode_encode_roundtrip (.metadata (.request 0)) rfl
